import Mathlib

/-
Verification of the kv-session module (Deno KV backed HTTP sessions).

The embedding models the parts of `session.ts` (and the matching copy in
`mod.ts`) that the claims are about:

* Deno KV key parts (`Deno.KvKeyPart`) as an inductive type; keys are lists
  of key parts.  The external KV engine (spec section 6) is modelled as an
  association list with `kvGet` / `kvSet` / `kvDelete` / `kvList` matching
  the abstract interface: `get` returns the stored value or not-found,
  `set` overwrites, `delete` removes, `list` enumerates entries whose key
  extends a given key.
* `toHashString(crypto.getRandomValues(new Uint8Array(16)))` as the hex
  encoding of a caller-supplied list of 16 random bytes (randomness is a
  parameter of the model).
* The `Object.assign(options, DEFAULT_OPTIONS)` configuration merge, with
  JavaScript property presence modelled as `Option (Option _)`: `none` is
  an absent property and `some none` a property present with value
  `undefined` (the `kvPath: undefined` entry of `DEFAULT_OPTIONS`).
* `SecureCookieMap` (external, spec section 6) at its boundary: signature
  verification of the request cookie is an `Option String` input
  (`none` = missing or invalid), the outbound jar is a list of
  (name, value, path) records.
* The `KvSession` class with `#key`, `get`, `set`, `delete`, `list`,
  `destroy`, `refresh`, `#updateId` and `createSession`.
-/

/-- A Deno KV key part: `Deno.KvKeyPart = Uint8Array | string | number | bigint | boolean`. -/
inductive KeyPart where
  | str (s : String)
  | num (n : Int)
  | big (n : Int)
  | boolean (b : Bool)
  | bytes (bs : List Nat)
  deriving DecidableEq

/-- A Deno KV key: an ordered sequence of key parts. -/
abbrev Key := List KeyPart

/-- The external KV engine state, modelled as an association list. -/
abbrev Store (α : Type) := List (Key × α)

/-- `keyStarts p k` holds when key `k` extends the key `p`, i.e. `k = p ++ r`;
this is the prefix selection used by `kv.list({ prefix })`. -/
def keyStarts : Key → Key → Bool
  | [], _ => true
  | _ :: _, [] => false
  | a :: ps, b :: ks => decide (a = b) && keyStarts ps ks

/-- `kv.get(key)`: the stored value, or not-found (`none`). -/
def kvGet {α : Type} : Store α → Key → Option α
  | [], _ => none
  | e :: st, k => if e.1 = k then some e.2 else kvGet st k

/-- `kv.delete(key)`: removes the entry stored at `key`. -/
def kvDelete {α : Type} : Store α → Key → Store α
  | [], _ => []
  | e :: st, k => if e.1 = k then kvDelete st k else e :: kvDelete st k

/-- `kv.set(key, value)`: stores `value` at `key`, overwriting. -/
def kvSet {α : Type} (st : Store α) (k : Key) (v : α) : Store α :=
  (k, v) :: kvDelete st k

/-- `kv.list({ prefix })`: all entries whose key extends the given key. -/
def kvList {α : Type} : Store α → Key → Store α
  | [], _ => []
  | e :: st, p => if keyStarts p e.1 then e :: kvList st p else kvList st p

/-- A single engine mutation, used to describe the operation order of `refresh`. -/
inductive KvOp (α : Type) where
  | set (k : Key) (v : α)
  | del (k : Key)
  deriving DecidableEq

/-- Apply one mutation to the store. -/
def applyOp {α : Type} (st : Store α) : KvOp α → Store α
  | .set k v => kvSet st k v
  | .del k => kvDelete st k

/-- Apply a sequence of mutations in order. -/
def applyOps {α : Type} (st : Store α) (t : List (KvOp α)) : Store α :=
  t.foldl applyOp st

/-- Lower-case hex digit for `n < 16`, per `Number.prototype.toString(16)`. -/
def hexDigitChar (n : Nat) : Char :=
  if n < 10 then Char.ofNat (48 + n) else Char.ofNat (87 + n)

/-- One byte as two lower-case hex digits (`toString(16).padStart(2, "0")`). -/
def byteToHex (b : Nat) : List Char :=
  [hexDigitChar (b / 16), hexDigitChar (b % 16)]

/-- `toHashString` from std/crypto with the default "hex" encoding. -/
def toHashString (data : List Nat) : String :=
  String.mk (data.flatMap byteToHex)

/-- `KvSession.generateId`: hex encoding of 16 random bytes.  The random
bytes delivered by `crypto.getRandomValues(new Uint8Array(16))` are a
parameter of the model. -/
def generateId (randomBytes : List Nat) : String :=
  toHashString randomBytes

/-- Is `c` a lower-case hexadecimal digit? -/
def isLowerHexChar (c : Char) : Bool :=
  (decide ('0' ≤ c) && decide (c ≤ '9')) || (decide ('a' ≤ c) && decide (c ≤ 'f'))

/-- A syntactically valid session id: exactly 32 lower-case hex characters. -/
def isValidId (s : String) : Bool :=
  decide (s.length = 32) && s.toList.all isLowerHexChar

/-- The caller-supplied sub-key: `Deno.KvKey | Deno.KvKeyPart`
(the `Array.isArray(key)` union of the source). -/
inductive SubKey where
  | single (p : KeyPart)
  | seq (ps : List KeyPart)
  deriving DecidableEq

/-- `const k = Array.isArray(key) ? key : [key]`. -/
def normalizeKey : SubKey → Key
  | .single p => [p]
  | .seq ps => ps

/-- Replace every key part equal to `old` with `fresh`. -/
def substPart (old fresh : KeyPart) (k : Key) : Key :=
  k.map (fun p => if p = old then fresh else p)

/-- `res.key.map((k) => k === this.#id ? freshId : k)` — the key rewrite of
`refresh`; `===` against the string id only ever matches string parts. -/
def rewriteKey (oldId freshId : String) (k : Key) : Key :=
  substPart (KeyPart.str oldId) (KeyPart.str freshId) k

/-- `Partial<KvSessionOptions>` with JavaScript property presence:
`none` = property absent, `some none` = present with value `undefined`,
`some (some v)` = present with value `v`. -/
structure KvSessionOptions where
  cookieName : Option (Option String) := none
  kvPath : Option (Option String) := none
  keySpace : Option (Option KeyPart) := none
  deriving DecidableEq

/-- One property of `Object.assign(target, source)`: a property present on
the source (even with value `undefined`) overwrites the target's. -/
def assignProp {β : Type} (t s : Option (Option β)) : Option (Option β) :=
  match s with
  | none => t
  | some v => some v

/-- `Object.assign(target, source)` over the three option properties. -/
def objectAssign (t s : KvSessionOptions) : KvSessionOptions :=
  { cookieName := assignProp t.cookieName s.cookieName,
    kvPath := assignProp t.kvPath s.kvPath,
    keySpace := assignProp t.keySpace s.keySpace }

/-- `DEFAULT_OPTIONS`: all three properties are own properties of the
literal, `kvPath` being present with value `undefined`. -/
def defaultOptions : KvSessionOptions :=
  { cookieName := some (some "sid"),
    kvPath := some none,
    keySpace := some (some (KeyPart.str "sessions")) }

/-- `Object.assign(options ?? {}, DEFAULT_OPTIONS)` as written in
`createSession` (target first, defaults second). -/
def mergedOptions (opts : KvSessionOptions) : KvSessionOptions :=
  objectAssign opts defaultOptions

/-- Reading a JavaScript property: an absent property reads as `undefined`. -/
def readProp {β : Type} (f : Option (Option β)) : Option β :=
  f.getD none

/-- The outbound cookie jar: (name, value, path) records. -/
abbrev CookieJar := List (String × String × String)

/-- `cookies.set(name, value, { path })` on the jar. -/
def jarSet (jar : CookieJar) (name value path : String) : CookieJar :=
  jar ++ [(name, value, path)]

/-- `cookies.delete(name, ...)` on the jar. -/
def jarDelete (jar : CookieJar) (name : String) : CookieJar :=
  jar.filter (fun c => decide (c.1 ≠ name))

/-- `cookies.set(name, value, { ..., overwrite: true })` on the jar. -/
def jarSetOverwrite (jar : CookieJar) (name value path : String) : CookieJar :=
  jarDelete jar name ++ [(name, value, path)]

/-- The `KvSession` class state: `#kv`, `#id`, `#keyspace`, `#cookieName`,
`#cookies`.  The constructor stores `#keyspace = [init.keySpace]`. -/
structure KvSession (α : Type) where
  kv : Store α
  id : String
  keyspace : Key
  cookieName : String
  cookies : CookieJar

/-- `get #key(): Deno.KvKey { return this.#keyspace.concat(this.#id); }` -/
def KvSession.sessionKey {α : Type} (s : KvSession α) : Key :=
  s.keyspace ++ [KeyPart.str s.id]

/-- The fully qualified key `[...this.#key, ...k]` used by get/set/delete. -/
def KvSession.opKey {α : Type} (s : KvSession α) (k : SubKey) : Key :=
  s.sessionKey ++ normalizeKey k

/-- `KvSession.get`. -/
def KvSession.get {α : Type} (s : KvSession α) (k : SubKey) : Option α :=
  kvGet s.kv (s.opKey k)

/-- `KvSession.set`. -/
def KvSession.set {α : Type} (s : KvSession α) (k : SubKey) (v : α) : KvSession α :=
  { s with kv := kvSet s.kv (s.opKey k) v }

/-- `KvSession.delete`. -/
def KvSession.del {α : Type} (s : KvSession α) (k : SubKey) : KvSession α :=
  { s with kv := kvDelete s.kv (s.opKey k) }

/-- `KvSession.list`: all KV entries for the active session. -/
def KvSession.list {α : Type} (s : KvSession α) : Store α :=
  kvList s.kv s.sessionKey

/-- `#updateId(value)`: swap the current id and re-set the cookie with
`overwrite: true` at path "/".  `destroy` calls it with a freshly generated
id, `refresh` with its `freshId`. -/
def KvSession.updateId {α : Type} (s : KvSession α) (newId : String) : KvSession α :=
  { s with id := newId,
           cookies := jarSetOverwrite s.cookies s.cookieName newId "/" }

/-- `destroy()`: delete every listed entry of the session's key space,
delete the cookie, then `#updateId()` with a freshly generated id. -/
def KvSession.destroy {α : Type} (s : KvSession α) (randomBytes : List Nat) : KvSession α :=
  KvSession.updateId
    { s with kv := s.list.foldl (fun st e => kvDelete st e.1) s.kv,
             cookies := jarDelete s.cookies s.cookieName }
    (generateId randomBytes)

/-- `refresh()`: for every listed entry, set the value under the rewritten
key and then delete the original key; finally `#updateId(freshId)` and
return `freshId`. -/
def KvSession.refresh {α : Type} (s : KvSession α) (randomBytes : List Nat) :
    KvSession α × String :=
  let freshId := generateId randomBytes
  let moved := s.list.foldl
    (fun st e => kvDelete (kvSet st (rewriteKey s.id freshId e.1) e.2) e.1) s.kv
  (KvSession.updateId { s with kv := moved } freshId, freshId)

/-- The sequence of engine mutations issued by one entry of the `refresh`
loop: write under the rewritten key, then delete the original key. -/
def traceOf {α : Type} (old fresh : KeyPart) (es : Store α) : List (KvOp α) :=
  es.flatMap (fun e => [KvOp.set (substPart old fresh e.1) e.2, KvOp.del e.1])

/-- The full mutation trace of `refresh()` over the enumerated entries. -/
def KvSession.refreshTrace {α : Type} (s : KvSession α) (randomBytes : List Nat) :
    List (KvOp α) :=
  traceOf (KeyPart.str s.id) (KeyPart.str (generateId randomBytes)) s.list

/-- `await cookies.get(cookieName) ?? KvSession.generateId()`: the verified
cookie value when present, the fallback otherwise. -/
def resolvedId (verifiedCookie : Option String) (fallbackId : String) : String :=
  verifiedCookie.getD fallbackId

/-- Whether the `?? KvSession.generateId()` fallback fires. -/
def usesGeneratedId (verifiedCookie : Option String) : Bool :=
  verifiedCookie.isNone

/-- `createSession(request, signatureKeys, options)`.  Signature
verification of the request cookie is abstracted into `verifiedCookie`
(`none` = cookie missing or signature invalid), and the 16 random bytes a
fallback id would consume are the `randomBytes` parameter.  The merged
configuration always carries every property (see `defaultOptions`), so the
`getD` fallbacks below are unreachable. -/
def createSession {α : Type} (opts : KvSessionOptions) (verifiedCookie : Option String)
    (randomBytes : List Nat) (kv : Store α) : KvSession α :=
  let cfg := mergedOptions opts
  let cName := (readProp cfg.cookieName).getD ""
  let kSpace := (readProp cfg.keySpace).getD (KeyPart.str "sessions")
  let sid := resolvedId verifiedCookie (generateId randomBytes)
  { kv := kv, id := sid, keyspace := [kSpace], cookieName := cName,
    cookies := jarSet [] cName sid "/" }

/-- The KvSession operations, for stating store-wide invariants. -/
inductive SessionOp (α : Type) where
  | opGet (k : SubKey)
  | opSet (k : SubKey) (v : α)
  | opDel (k : SubKey)
  | opList
  | opDestroy (randomBytes : List Nat)
  | opRefresh (randomBytes : List Nat)

/-- Every store key read, written or deleted by a session operation:
get/set/delete touch the fully qualified key; list and destroy touch the
enumerated keys; refresh touches the enumerated keys and their rewrites. -/
def touchedKeys {α : Type} (s : KvSession α) : SessionOp α → List Key
  | .opGet k => [s.opKey k]
  | .opSet k _ => [s.opKey k]
  | .opDel k => [s.opKey k]
  | .opList => s.list.map Prod.fst
  | .opDestroy _ => s.list.map Prod.fst
  | .opRefresh rb => s.list.map Prod.fst
      ++ s.list.map (fun e => rewriteKey s.id (generateId rb) e.1)

/-- A concrete sample store used by the witness theorems. -/
def sampleStore : Store String :=
  [([KeyPart.str "sessions", KeyPart.str "aa", KeyPart.str "name"], "bob"),
   ([KeyPart.str "sessions", KeyPart.str "aa", KeyPart.str "job"], "dev")]

/-- A concrete session bound to id "aa", used by the witness theorems. -/
def sessA : KvSession String :=
  { kv := sampleStore, id := "aa", keyspace := [KeyPart.str "sessions"],
    cookieName := "sid", cookies := [] }

/-- A concrete session bound to id "bb", used by the witness theorems. -/
def sessB : KvSession String :=
  { kv := sampleStore, id := "bb", keyspace := [KeyPart.str "sessions"],
    cookieName := "sid", cookies := [] }

/-- Sixteen zero bytes: a concrete outcome of the random source. -/
def zeroBytes : List Nat := List.replicate 16 0

/-
Basic lemmas about the store model.
-/

theorem keyStarts_iff (p k : Key) : keyStarts p k = true ↔ ∃ r, k = p ++ r := by
  induction p generalizing k with
  | nil => simp [keyStarts]
  | cons a ps ih =>
    cases k with
    | nil => simp [keyStarts]
    | cons b ks =>
      simp only [keyStarts, Bool.and_eq_true, decide_eq_true_eq, ih]
      constructor
      · rintro ⟨rfl, r, rfl⟩
        exact ⟨r, rfl⟩
      · rintro ⟨r, hr⟩
        cases hr
        exact ⟨rfl, r, rfl⟩

theorem keyStarts_app (p r : Key) : keyStarts p (p ++ r) = true :=
  (keyStarts_iff p (p ++ r)).mpr ⟨r, rfl⟩

theorem keyStarts_two {a b : KeyPart} {k : Key} (h : keyStarts [a, b] k = true) :
    k.get? 0 = some a ∧ k.get? 1 = some b := by
  obtain ⟨r, rfl⟩ := (keyStarts_iff _ _).mp h
  exact ⟨rfl, rfl⟩

theorem keyStarts_head {a : KeyPart} {p k : Key} (h : keyStarts (a :: p) k = true) :
    k.head? = some a := by
  obtain ⟨r, rfl⟩ := (keyStarts_iff _ _).mp h
  rfl

theorem kvGet_of_mem {α : Type} {st : Store α} {e : Key × α}
    (hnd : (st.map Prod.fst).Nodup) (hm : e ∈ st) : kvGet st e.1 = some e.2 := by
  induction st with
  | nil => cases hm
  | cons f st ih =>
    simp only [List.map_cons, List.nodup_cons] at hnd
    rcases List.mem_cons.mp hm with rfl | hm2
    · simp [kvGet]
    · have hne : f.1 ≠ e.1 := by
        intro hc
        exact hnd.1 (hc ▸ List.mem_map_of_mem Prod.fst hm2)
      simp only [kvGet, if_neg hne]
      exact ih hnd.2 hm2

theorem mem_of_kvGet_some {α : Type} {st : Store α} {k : Key} {v : α}
    (h : kvGet st k = some v) : (k, v) ∈ st := by
  induction st with
  | nil => simp [kvGet] at h
  | cons f st ih =>
    by_cases hf : f.1 = k
    · simp only [kvGet, if_pos hf] at h
      cases h
      exact List.mem_cons.mpr (Or.inl (by rw [← hf]))
    · simp only [kvGet, if_neg hf] at h
      exact List.mem_cons.mpr (Or.inr (ih h))

theorem kvGet_kvDelete_ne {α : Type} {st : Store α} {k kk : Key} (h : kk ≠ k) :
    kvGet (kvDelete st k) kk = kvGet st kk := by
  induction st with
  | nil => rfl
  | cons f st ih =>
    by_cases hf : f.1 = k
    · have : f.1 ≠ kk := by rw [hf]; exact fun hc => h hc.symm
      simp only [kvDelete, if_pos hf, kvGet, if_neg this]
      exact ih
    · simp only [kvDelete, if_neg hf, kvGet]
      by_cases hk : f.1 = kk
      · simp [hk]
      · simp only [if_neg hk]
        exact ih

theorem kvGet_kvSet_self {α : Type} (st : Store α) (k : Key) (v : α) :
    kvGet (kvSet st k v) k = some v := by
  simp [kvSet, kvGet]

theorem kvGet_kvSet_ne {α : Type} {st : Store α} {k kk : Key} (v : α) (h : kk ≠ k) :
    kvGet (kvSet st k v) kk = kvGet st kk := by
  have : k ≠ kk := fun hc => h hc.symm
  simp only [kvSet, kvGet, if_neg this]
  exact kvGet_kvDelete_ne h

theorem mem_kvDelete_elim {α : Type} {st : Store α} {k : Key} {e : Key × α}
    (h : e ∈ kvDelete st k) : e ∈ st ∧ e.1 ≠ k := by
  induction st with
  | nil => cases h
  | cons f st ih =>
    by_cases hf : f.1 = k
    · simp only [kvDelete, if_pos hf] at h
      exact ⟨List.mem_cons.mpr (Or.inr (ih h).1), (ih h).2⟩
    · simp only [kvDelete, if_neg hf] at h
      rcases List.mem_cons.mp h with rfl | h2
      · exact ⟨List.mem_cons.mpr (Or.inl rfl), hf⟩
      · exact ⟨List.mem_cons.mpr (Or.inr (ih h2).1), (ih h2).2⟩

theorem mem_kvSet_elim {α : Type} {st : Store α} {k : Key} {v : α} {e : Key × α}
    (h : e ∈ kvSet st k v) : e = (k, v) ∨ (e ∈ st ∧ e.1 ≠ k) := by
  rcases List.mem_cons.mp h with rfl | h2
  · exact Or.inl rfl
  · exact Or.inr (mem_kvDelete_elim h2)

theorem mem_kvList_iff {α : Type} {st : Store α} {p : Key} {e : Key × α} :
    e ∈ kvList st p ↔ e ∈ st ∧ keyStarts p e.1 = true := by
  induction st with
  | nil => simp [kvList]
  | cons f st ih =>
    by_cases hf : keyStarts p f.1 = true
    · simp only [kvList, if_pos hf, List.mem_cons, ih]
      constructor
      · rintro (rfl | ⟨hm, hs⟩)
        · exact ⟨Or.inl rfl, hf⟩
        · exact ⟨Or.inr hm, hs⟩
      · rintro ⟨rfl | hm, hs⟩
        · exact Or.inl rfl
        · exact Or.inr ⟨hm, hs⟩
    · simp only [kvList, if_neg hf, ih, List.mem_cons]
      constructor
      · rintro ⟨hm, hs⟩
        exact ⟨Or.inr hm, hs⟩
      · rintro ⟨rfl | hm, hs⟩
        · exact absurd hs hf
        · exact ⟨hm, hs⟩

theorem kvList_eq_nil_of {α : Type} {st : Store α} {p : Key}
    (h : ∀ e ∈ st, ¬ keyStarts p e.1 = true) : kvList st p = [] := by
  induction st with
  | nil => rfl
  | cons f st ih =>
    have hf : ¬ keyStarts p f.1 = true := h f (List.mem_cons.mpr (Or.inl rfl))
    simp only [kvList, if_neg hf]
    exact ih (fun e he => h e (List.mem_cons.mpr (Or.inr he)))

theorem kvList_sublist {α : Type} (st : Store α) (p : Key) : List.Sublist (kvList st p) st := by
  induction st with
  | nil => exact List.Sublist.refl []
  | cons f st ih =>
    by_cases hf : keyStarts p f.1 = true
    · simpa only [kvList, if_pos hf] using ih.cons₂ f
    · simpa only [kvList, if_neg hf] using ih.cons f

/-
Lemmas about the key rewrite of `refresh` and the hex id encoding.
-/

theorem substPart_nth (old fresh : KeyPart) (k : Key) (i : Nat) :
    (substPart old fresh k).get? i = (k.get? i).map (fun p => if p = old then fresh else p) :=
  List.get?_map _ _ _

theorem substPart_snd {old fresh : KeyPart} {k : Key} (h : k.get? 1 = some old) :
    (substPart old fresh k).get? 1 = some fresh := by
  rw [substPart_nth, h]
  simp

theorem ne_of_nth {k1 k2 : Key} {a b : KeyPart} (h1 : k1.get? 1 = some a)
    (h2 : k2.get? 1 = some b) (hab : a ≠ b) : k1 ≠ k2 := by
  intro hc
  rw [hc, h2] at h1
  exact hab (Option.some.inj h1).symm

theorem substPart_inj {old fresh : KeyPart} :
    ∀ {k1 k2 : Key}, fresh ∉ k1 → fresh ∉ k2 →
      substPart old fresh k1 = substPart old fresh k2 → k1 = k2 := by
  intro k1
  induction k1 with
  | nil =>
    intro k2 _ _ h
    cases k2 with
    | nil => rfl
    | cons b bs => simp [substPart] at h
  | cons a as ih =>
    intro k2 h1 h2 h
    cases k2 with
    | nil => simp [substPart] at h
    | cons b bs =>
      simp only [substPart, List.map_cons, List.cons.injEq] at h
      obtain ⟨hh, ht⟩ := h
      simp only [List.mem_cons, not_or] at h1 h2
      have hab : a = b := by
        by_cases ha : a = old <;> by_cases hb : b = old
        · rw [ha, hb]
        · rw [if_pos ha, if_neg hb] at hh
          exact absurd hh.symm (fun hc => h2.1 hc.symm)
        · rw [if_neg ha, if_pos hb] at hh
          exact absurd hh (fun hc => h1.1 hc.symm)
        · rwa [if_neg ha, if_neg hb] at hh
      rw [hab, ih h1.2 h2.2 ht]

theorem hexDigitChar_hex {n : Nat} (h : n < 16) : isLowerHexChar (hexDigitChar n) = true := by
  interval_cases n <;> decide

theorem byteToHex_hex {b : Nat} (h : b < 256) : (byteToHex b).all isLowerHexChar = true := by
  have h1 : b / 16 < 16 := Nat.div_lt_of_lt_mul h
  have h2 : b % 16 < 16 := Nat.mod_lt b (by decide)
  simp [byteToHex, hexDigitChar_hex h1, hexDigitChar_hex h2]

theorem generateId_hex_spec {rb : List Nat} (h16 : rb.length = 16)
    (hb : ∀ b ∈ rb, b < 256) :
    (generateId rb).length = 32 ∧ (generateId rb).toList.all isLowerHexChar = true := by
  have hlen : ∀ l : List Nat, (l.flatMap byteToHex).length = 2 * l.length := by
    intro l
    induction l with
    | nil => rfl
    | cons b bs ih =>
      simp only [List.flatMap_cons, List.length_append, ih, byteToHex]
      simp
      omega
  have hall : ∀ l : List Nat, (∀ b ∈ l, b < 256) →
      (l.flatMap byteToHex).all isLowerHexChar = true := by
    intro l hl
    induction l with
    | nil => rfl
    | cons b bs ih =>
      rw [List.flatMap_cons, List.all_append]
      have hbb : (byteToHex b).all isLowerHexChar = true :=
        byteToHex_hex (hl b (List.mem_cons.mpr (Or.inl rfl)))
      rw [hbb, ih (fun x hx => hl x (List.mem_cons.mpr (Or.inr hx)))]
      rfl
  constructor
  · show (String.mk (rb.flatMap byteToHex)).length = 32
    have : (String.mk (rb.flatMap byteToHex)).length = (rb.flatMap byteToHex).length := rfl
    rw [this, hlen, h16]
  · show (String.mk (rb.flatMap byteToHex)).toList.all isLowerHexChar = true
    have : (String.mk (rb.flatMap byteToHex)).toList = rb.flatMap byteToHex := rfl
    rw [this]
    exact hall rb hb

/-
The mutation trace of the refresh loop and its properties.
-/

theorem traceOf_cons {α : Type} (old fresh : KeyPart) (e : Key × α) (es : Store α) :
    traceOf old fresh (e :: es) =
      KvOp.set (substPart old fresh e.1) e.2 :: KvOp.del e.1 :: traceOf old fresh es := rfl

theorem refresh_fold_eq {α : Type} (oldId freshId : String) :
    ∀ (es : Store α) (st : Store α),
      es.foldl (fun st e => kvDelete (kvSet st (rewriteKey oldId freshId e.1) e.2) e.1) st
        = applyOps st (traceOf (KeyPart.str oldId) (KeyPart.str freshId) es) := by
  intro es
  induction es with
  | nil => intro st; rfl
  | cons e es ih =>
    intro st
    rw [List.foldl_cons, ih, traceOf_cons]
    rfl

theorem foldDel_mem {α : Type} :
    ∀ (es : Store α) (st : Store α) (e2 : Key × α),
      e2 ∈ es.foldl (fun st e => kvDelete st e.1) st →
      e2 ∈ st ∧ e2.1 ∉ es.map Prod.fst := by
  intro es
  induction es with
  | nil =>
    intro st e2 h
    exact ⟨h, by simp⟩
  | cons e es ih =>
    intro st e2 h
    rw [List.foldl_cons] at h
    obtain ⟨hmem, hnk⟩ := ih (kvDelete st e.1) e2 h
    obtain ⟨hst, hne⟩ := mem_kvDelete_elim hmem
    refine ⟨hst, ?_⟩
    simp only [List.map_cons, List.mem_cons, not_or]
    exact ⟨hne, hnk⟩

theorem foldDel_frame {α : Type} :
    ∀ (es : Store α) (st : Store α) (K : Key),
      (∀ e ∈ es, e.1 ≠ K) →
      kvGet (es.foldl (fun st e => kvDelete st e.1) st) K = kvGet st K := by
  intro es
  induction es with
  | nil => intro st K _; rfl
  | cons e es ih =>
    intro st K h
    rw [List.foldl_cons, ih _ _ (fun x hx => h x (List.mem_cons.mpr (Or.inr hx)))]
    exact kvGet_kvDelete_ne (fun hc => h e (List.mem_cons.mpr (Or.inl rfl)) hc.symm)

theorem traceOf_frame {α : Type} (old fresh : KeyPart) :
    ∀ (es : Store α) (st : Store α) (K : Key),
      (∀ e ∈ es, e.1 ≠ K ∧ substPart old fresh e.1 ≠ K) →
      kvGet (applyOps st (traceOf old fresh es)) K = kvGet st K := by
  intro es
  induction es with
  | nil => intro st K _; rfl
  | cons e es ih =>
    intro st K h
    have hh := h e (List.mem_cons.mpr (Or.inl rfl))
    rw [traceOf_cons]
    show kvGet (applyOps (kvDelete (kvSet st (substPart old fresh e.1) e.2) e.1)
      (traceOf old fresh es)) K = kvGet st K
    rw [ih _ _ (fun x hx => h x (List.mem_cons.mpr (Or.inr hx)))]
    rw [kvGet_kvDelete_ne (fun hc => hh.1 hc.symm)]
    exact kvGet_kvSet_ne _ (fun hc => hh.2 hc.symm)

theorem traceOf_run {α : Type} {old fresh : KeyPart} (hof : old ≠ fresh) :
    ∀ (es : Store α) (st : Store α) (t u : List (KvOp α)),
      t ++ u = traceOf old fresh es →
      (es.map Prod.fst).Nodup →
      (∀ e ∈ es, e.1.get? 1 = some old) →
      (∀ e ∈ es, fresh ∉ e.1) →
      ((∀ K v, K.get? 1 = some fresh → (∀ e ∈ es, substPart old fresh e.1 ≠ K) →
          kvGet st K = some v → kvGet (applyOps st t) K = some v)
        ∧ ((∀ e ∈ es, kvGet st e.1 = some e.2) →
            ∀ e ∈ es, kvGet (applyOps st t) e.1 = some e.2
              ∨ kvGet (applyOps st t) (substPart old fresh e.1) = some e.2)) := by
  intro es
  induction es with
  | nil =>
    intro st t u hsplit _ _ _
    have ht : t = [] := by
      have : t ++ u = [] := hsplit
      exact (List.append_eq_nil.mp this).1
    subst ht
    exact ⟨fun K v _ _ h => h, fun _ e he => absurd he (List.not_mem_nil e)⟩
  | cons e0 es ih =>
    intro st t u hsplit hnd hnth hfr
    rw [traceOf_cons] at hsplit
    have hnth0 : e0.1.get? 1 = some old := hnth e0 (List.mem_cons.mpr (Or.inl rfl))
    have hfr0 : fresh ∉ e0.1 := hfr e0 (List.mem_cons.mpr (Or.inl rfl))
    have hsnd0 : (substPart old fresh e0.1).get? 1 = some fresh := substPart_snd hnth0
    have hne0 : e0.1 ≠ substPart old fresh e0.1 := ne_of_nth hnth0 hsnd0 hof
    have hndtl : (es.map Prod.fst).Nodup := by
      simp only [List.map_cons, List.nodup_cons] at hnd
      exact hnd.2
    have hnd0 : e0.1 ∉ es.map Prod.fst := by
      simp only [List.map_cons, List.nodup_cons] at hnd
      exact hnd.1
    have hnthtl : ∀ e ∈ es, e.1.get? 1 = some old :=
      fun e he => hnth e (List.mem_cons.mpr (Or.inr he))
    have hfrtl : ∀ e ∈ es, fresh ∉ e.1 :=
      fun e he => hfr e (List.mem_cons.mpr (Or.inr he))
    cases t with
    | nil =>
      refine ⟨fun K v _ _ h => h, fun hb e he => Or.inl (hb e he)⟩
    | cons x t1 =>
      rw [List.cons_append] at hsplit
      have hx : x = KvOp.set (substPart old fresh e0.1) e0.2 := (List.cons.injEq _ _ _ _).mp hsplit |>.1
      have hsplit1 : t1 ++ u = KvOp.del e0.1 :: traceOf old fresh es :=
        ((List.cons.injEq _ _ _ _).mp hsplit).2
      subst hx
      cases t1 with
      | nil =>
        constructor
        · intro K v _ hKne hget
          show kvGet (kvSet st (substPart old fresh e0.1) e0.2) K = some v
          rw [kvGet_kvSet_ne _ (fun hc => hKne e0 (List.mem_cons.mpr (Or.inl rfl)) hc.symm)]
          exact hget
        · intro hb e he
          rcases List.mem_cons.mp he with rfl | he2
          · exact Or.inr (kvGet_kvSet_self st _ _)
          · refine Or.inl ?_
            show kvGet (kvSet st (substPart old fresh e0.1) e0.2) e.1 = some e.2
            rw [kvGet_kvSet_ne _
              (ne_of_nth (hnthtl e he2) hsnd0 hof)]
            exact hb e (List.mem_cons.mpr (Or.inr he2))
      | cons y t2 =>
        rw [List.cons_append] at hsplit1
        have hy : y = KvOp.del e0.1 := ((List.cons.injEq _ _ _ _).mp hsplit1).1
        have hsplit2 : t2 ++ u = traceOf old fresh es :=
          ((List.cons.injEq _ _ _ _).mp hsplit1).2
        subst hy
        have hstep : ∀ w : Store α, applyOps w (KvOp.set (substPart old fresh e0.1) e0.2
            :: KvOp.del e0.1 :: t2)
            = applyOps (kvDelete (kvSet w (substPart old fresh e0.1) e0.2) e0.1) t2 :=
          fun w => rfl
        obtain ⟨ihP1, ihP2⟩ := ih (kvDelete (kvSet st (substPart old fresh e0.1) e0.2) e0.1)
          t2 u hsplit2 hndtl hnthtl hfrtl
        constructor
        · intro K v hK hKne hget
          rw [hstep]
          refine ihP1 K v hK (fun e he => hKne e (List.mem_cons.mpr (Or.inr he))) ?_
          have hK0 : K ≠ e0.1 := fun hc => by
            rw [hc, hnth0] at hK
            exact hof (Option.some.inj hK)
          rw [kvGet_kvDelete_ne hK0,
            kvGet_kvSet_ne _ (fun hc => hKne e0 (List.mem_cons.mpr (Or.inl rfl)) hc.symm)]
          exact hget
        · intro hb e he
          rcases List.mem_cons.mp he with rfl | he2
          · refine Or.inr ?_
            rw [hstep]
            refine ihP1 (substPart old fresh e.1) e.2 hsnd0 ?_ ?_
            · intro e2 he2 hc
              have : e2.1 = e.1 := substPart_inj (hfrtl e2 he2) hfr0 hc
              exact hnd0 (this ▸ List.mem_map_of_mem Prod.fst he2)
            · rw [kvGet_kvDelete_ne (fun hc => hne0 hc.symm)]
              exact kvGet_kvSet_self st _ _
          · rw [hstep]
            refine ihP2 ?_ e he2
            intro e2 he22
            have h1 : e2.1 ≠ e0.1 := fun hc =>
              hnd0 (hc ▸ List.mem_map_of_mem Prod.fst he22)
            have h2 : e2.1 ≠ substPart old fresh e0.1 :=
              ne_of_nth (hnthtl e2 he22) hsnd0 hof
            rw [kvGet_kvDelete_ne h1, kvGet_kvSet_ne _ h2]
            exact hb e2 (List.mem_cons.mpr (Or.inr he22))

theorem traceOf_complete {α : Type} {old fresh : KeyPart} (hof : old ≠ fresh) :
    ∀ (es : Store α) (st : Store α),
      (es.map Prod.fst).Nodup →
      (∀ e ∈ es, e.1.get? 1 = some old) →
      (∀ e ∈ es, fresh ∉ e.1) →
      (∀ e ∈ es, kvGet st e.1 = some e.2) →
      ∀ e ∈ es, kvGet (applyOps st (traceOf old fresh es)) (substPart old fresh e.1) = some e.2 := by
  intro es
  induction es with
  | nil => intro st _ _ _ _ e he; exact absurd he (List.not_mem_nil e)
  | cons e0 es ih =>
    intro st hnd hnth hfr hb e he
    have hnth0 : e0.1.get? 1 = some old := hnth e0 (List.mem_cons.mpr (Or.inl rfl))
    have hfr0 : fresh ∉ e0.1 := hfr e0 (List.mem_cons.mpr (Or.inl rfl))
    have hsnd0 : (substPart old fresh e0.1).get? 1 = some fresh := substPart_snd hnth0
    have hne0 : e0.1 ≠ substPart old fresh e0.1 := ne_of_nth hnth0 hsnd0 hof
    have hndtl : (es.map Prod.fst).Nodup := by
      simp only [List.map_cons, List.nodup_cons] at hnd
      exact hnd.2
    have hnd0 : e0.1 ∉ es.map Prod.fst := by
      simp only [List.map_cons, List.nodup_cons] at hnd
      exact hnd.1
    have hnthtl : ∀ x ∈ es, x.1.get? 1 = some old :=
      fun x hx => hnth x (List.mem_cons.mpr (Or.inr hx))
    have hfrtl : ∀ x ∈ es, fresh ∉ x.1 :=
      fun x hx => hfr x (List.mem_cons.mpr (Or.inr hx))
    rw [traceOf_cons]
    have hstep : applyOps st (KvOp.set (substPart old fresh e0.1) e0.2
        :: KvOp.del e0.1 :: traceOf old fresh es)
        = applyOps (kvDelete (kvSet st (substPart old fresh e0.1) e0.2) e0.1)
            (traceOf old fresh es) := rfl
    rw [hstep]
    have hbtl : ∀ x ∈ es,
        kvGet (kvDelete (kvSet st (substPart old fresh e0.1) e0.2) e0.1) x.1 = some x.2 := by
      intro x hx
      have h1 : x.1 ≠ e0.1 := fun hc => hnd0 (hc ▸ List.mem_map_of_mem Prod.fst hx)
      have h2 : x.1 ≠ substPart old fresh e0.1 := ne_of_nth (hnthtl x hx) hsnd0 hof
      rw [kvGet_kvDelete_ne h1, kvGet_kvSet_ne _ h2]
      exact hb x (List.mem_cons.mpr (Or.inr hx))
    rcases List.mem_cons.mp he with rfl | he2
    · obtain ⟨P1, _⟩ := traceOf_run hof es
        (kvDelete (kvSet st (substPart old fresh e.1) e.2) e.1)
        (traceOf old fresh es) [] (List.append_nil _) hndtl hnthtl hfrtl
      refine P1 (substPart old fresh e.1) e.2 hsnd0 ?_ ?_
      · intro e2 he22 hc
        have : e2.1 = e.1 := substPart_inj (hfrtl e2 he22) hfr0 hc
        exact hnd0 (this ▸ List.mem_map_of_mem Prod.fst he22)
      · rw [kvGet_kvDelete_ne (fun hc => hne0 hc.symm)]
        exact kvGet_kvSet_self st _ _
    · exact ih _ hndtl hnthtl hfrtl hbtl e he2

theorem traceOf_mem {α : Type} (old fresh : KeyPart) :
    ∀ (es : Store α) (st : Store α) (e2 : Key × α),
      e2 ∈ applyOps st (traceOf old fresh es) →
      (∃ e, e ∈ es ∧ e2.1 = substPart old fresh e.1) ∨ (e2 ∈ st ∧ e2.1 ∉ es.map Prod.fst) := by
  intro es
  induction es with
  | nil =>
    intro st e2 h
    exact Or.inr ⟨h, by simp⟩
  | cons e0 es ih =>
    intro st e2 h
    rw [traceOf_cons] at h
    have hstep : applyOps st (KvOp.set (substPart old fresh e0.1) e0.2
        :: KvOp.del e0.1 :: traceOf old fresh es)
        = applyOps (kvDelete (kvSet st (substPart old fresh e0.1) e0.2) e0.1)
            (traceOf old fresh es) := rfl
    rw [hstep] at h
    rcases ih _ e2 h with ⟨e, he, hk⟩ | ⟨hm, hnk⟩
    · exact Or.inl ⟨e, List.mem_cons.mpr (Or.inr he), hk⟩
    · obtain ⟨hm2, hne1⟩ := mem_kvDelete_elim hm
      rcases mem_kvSet_elim hm2 with rfl | ⟨hm3, hne2⟩
      · exact Or.inl ⟨e0, List.mem_cons.mpr (Or.inl rfl), rfl⟩
      · refine Or.inr ⟨hm3, ?_⟩
        simp only [List.map_cons, List.mem_cons, not_or]
        exact ⟨hne1, hnk⟩

/-
Session level helper facts.
-/

theorem sessionKey_eq {α : Type} {s : KvSession α} {ks : KeyPart}
    (hks : s.keyspace = [ks]) : s.sessionKey = [ks, KeyPart.str s.id] := by
  rw [KvSession.sessionKey, hks]
  rfl

theorem list_nodup {α : Type} {s : KvSession α}
    (hnd : (s.kv.map Prod.fst).Nodup) : (s.list.map Prod.fst).Nodup :=
  List.Nodup.sublist (List.Sublist.map Prod.fst (kvList_sublist s.kv s.sessionKey)) hnd

theorem list_mem_kv {α : Type} {s : KvSession α} {e : Key × α}
    (he : e ∈ s.list) : e ∈ s.kv :=
  (mem_kvList_iff.mp he).1

theorem list_nth {α : Type} {s : KvSession α} {ks : KeyPart} {e : Key × α}
    (hks : s.keyspace = [ks]) (he : e ∈ s.list) :
    e.1.get? 1 = some (KeyPart.str s.id) := by
  have hstart : keyStarts s.sessionKey e.1 = true := (mem_kvList_iff.mp he).2
  rw [sessionKey_eq hks] at hstart
  exact (keyStarts_two hstart).2

/-
The claims.
-/

/-- C1 (code bug witness): the configuration merge of `createSession` is
`Object.assign(options, DEFAULT_OPTIONS)`, whose source argument —
`DEFAULT_OPTIONS`, carrying all three properties — overwrites every
caller-supplied option.  The merge is therefore constant, and in particular
a caller-supplied `cookieName: "custom"` is discarded in favour of the
default `"sid"`, contradicting the documented option semantics
(`@default {"sid"}`, a "configurable" keySpace). -/
theorem claim1_options_merge_constant :
    (∀ opts : KvSessionOptions, mergedOptions opts = defaultOptions)
    ∧ readProp (mergedOptions { cookieName := some (some "custom") }).cookieName = some "sid"
    ∧ (∀ (rb : List Nat) (kv : Store Nat),
        (createSession { cookieName := some (some "custom") } none rb kv).cookieName = "sid") :=
  ⟨fun _ => rfl, rfl, fun _ _ => rfl⟩

/-- C7: when the request carries a session cookie whose signature verifies
(`cookies.get` returns `some sid`), `createSession` adopts exactly the
signed id, and the `?? KvSession.generateId()` fallback does not fire. -/
theorem claim7_valid_cookie_resolves_signed_id {α : Type} (opts : KvSessionOptions)
    (sid : String) (rb : List Nat) (kv : Store α) :
    (createSession opts (some sid) rb kv).id = sid
    ∧ usesGeneratedId (some sid) = false :=
  ⟨rfl, rfl⟩

/-- C5: the key rewrite of `refresh` replaces every key part equal to the
literal old id (at whatever position, including caller-supplied sub-key
parts) with the fresh id, leaving all other parts and the key's length
unchanged — it is not pinned to index 1. -/
theorem claim5_rewrite_replaces_every_old_id_part (oldId freshId : String) (k : Key) :
    (rewriteKey oldId freshId k).length = k.length
    ∧ ∀ i : Nat, (rewriteKey oldId freshId k).get? i
        = (k.get? i).map (fun p => if p = KeyPart.str oldId then KeyPart.str freshId else p) :=
  ⟨List.length_map k _, fun i => substPart_nth _ _ k i⟩

/-- C4: the fully qualified key used by get/set/delete is
`[keySpace, id] ++ normalizeKey k`, and sessions with different ids can
never produce the same fully qualified key (namespace isolation). -/
theorem claim4_namespacing_and_isolation {α : Type} (s1 s2 : KvSession α)
    (ks1 ks2 : KeyPart) (h1 : s1.keyspace = [ks1]) (h2 : s2.keyspace = [ks2])
    (hne : s1.id ≠ s2.id) :
    (∀ k : SubKey, s1.opKey k = [ks1, KeyPart.str s1.id] ++ normalizeKey k)
    ∧ (∀ k1 k2 : SubKey, s1.opKey k1 ≠ s2.opKey k2) := by
  have hkey : ∀ (s : KvSession α) (ks : KeyPart), s.keyspace = [ks] →
      ∀ k : SubKey, s.opKey k = [ks, KeyPart.str s.id] ++ normalizeKey k := by
    intro s ks hks k
    rw [KvSession.opKey, sessionKey_eq hks]
  refine ⟨hkey s1 ks1 h1, ?_⟩
  intro k1 k2 hc
  have e1 : (s1.opKey k1).get? 1 = some (KeyPart.str s1.id) := by
    rw [hkey s1 ks1 h1 k1]; rfl
  have e2 : (s2.opKey k2).get? 1 = some (KeyPart.str s2.id) := by
    rw [hkey s2 ks2 h2 k2]; rfl
  rw [hc, e2] at e1
  exact hne (KeyPart.str.inj (Option.some.inj e1.symm))

/-- C4 witness: two concrete sessions over the same key space with distinct
ids satisfy the hypotheses and so never share a fully qualified key. -/
theorem claim4_witness :
    sessA.keyspace = [KeyPart.str "sessions"]
    ∧ sessB.keyspace = [KeyPart.str "sessions"]
    ∧ sessA.id ≠ sessB.id
    ∧ ((∀ k : SubKey,
          sessA.opKey k = [KeyPart.str "sessions", KeyPart.str "aa"] ++ normalizeKey k)
        ∧ (∀ k1 k2 : SubKey, sessA.opKey k1 ≠ sessB.opKey k2)) :=
  ⟨rfl, rfl, by decide,
    claim4_namespacing_and_isolation sessA sessB _ _ rfl rfl (by decide)⟩

/-- C10: `generateId` is the hex encoding of its 16 random bytes — a string
of exactly 32 lower-case hexadecimal characters — and it is exactly the id
minted by `createSession`'s fallback, by `destroy` and by `refresh`. -/
theorem claim10_generated_ids_are_32_hex {α : Type} (rb : List Nat)
    (h16 : rb.length = 16) (hb : ∀ b ∈ rb, b < 256) :
    (generateId rb).length = 32
    ∧ (generateId rb).toList.all isLowerHexChar = true
    ∧ (∀ (opts : KvSessionOptions) (kv : Store α),
        (createSession opts none rb kv).id = generateId rb)
    ∧ (∀ s : KvSession α,
        (s.destroy rb).id = generateId rb ∧ (s.refresh rb).2 = generateId rb) := by
  obtain ⟨hl, hh⟩ := generateId_hex_spec h16 hb
  exact ⟨hl, hh, fun _ _ => rfl, fun _ => ⟨rfl, rfl⟩⟩

/-- C10 witness: sixteen zero bytes satisfy the hypotheses and yield a
32-character hex id for every minting site. -/
theorem claim10_witness :
    zeroBytes.length = 16
    ∧ (∀ b ∈ zeroBytes, b < 256)
    ∧ ((generateId zeroBytes).length = 32
        ∧ (generateId zeroBytes).toList.all isLowerHexChar = true
        ∧ (∀ (opts : KvSessionOptions) (kv : Store String),
            (createSession opts none zeroBytes kv).id = generateId zeroBytes)
        ∧ (∀ s : KvSession String,
            (s.destroy zeroBytes).id = generateId zeroBytes
              ∧ (s.refresh zeroBytes).2 = generateId zeroBytes)) :=
  ⟨by decide, by decide,
    claim10_generated_ids_are_32_hex zeroBytes (by decide) (by decide)⟩

/-- C8: on a missing or tampered cookie (`cookies.get` yields nothing),
`createSession` proceeds without error, adopts the freshly generated,
syntactically valid id, and sets the session cookie at path "/" in the
outbound jar. -/
theorem claim8_missing_cookie_fallback {α : Type} (opts : KvSessionOptions)
    (rb : List Nat) (kv : Store α) (h16 : rb.length = 16) (hb : ∀ b ∈ rb, b < 256) :
    (createSession opts none rb kv).id = generateId rb
    ∧ isValidId (createSession opts none rb kv).id = true
    ∧ ((createSession opts none rb kv).cookieName,
        (createSession opts none rb kv).id, "/")
        ∈ (createSession opts none rb kv).cookies := by
  obtain ⟨hl, hh⟩ := generateId_hex_spec h16 hb
  refine ⟨rfl, ?_, ?_⟩
  · show isValidId (generateId rb) = true
    rw [isValidId, hl, hh]
    rfl
  · show ((createSession opts none rb kv).cookieName,
      (createSession opts none rb kv).id, "/") ∈ jarSet [] "sid" (generateId rb) "/"
    exact List.mem_singleton.mpr rfl

/-- C8 witness: a concrete request with no valid cookie gets the generated
32-hex id and a session cookie at path "/". -/
theorem claim8_witness :
    zeroBytes.length = 16
    ∧ (∀ b ∈ zeroBytes, b < 256)
    ∧ ((createSession {} none zeroBytes ([] : Store String)).id = generateId zeroBytes
        ∧ isValidId (createSession {} none zeroBytes ([] : Store String)).id = true
        ∧ ((createSession {} none zeroBytes ([] : Store String)).cookieName,
            (createSession {} none zeroBytes ([] : Store String)).id, "/")
            ∈ (createSession {} none zeroBytes ([] : Store String)).cookies) :=
  ⟨by decide, by decide,
    claim8_missing_cookie_fallback {} zeroBytes [] (by decide) (by decide)⟩

/-- C3: after `destroy()`, listing the old id's namespace gives the empty
sequence, the session's current id differs from the pre-destroy id, and a
`get` under the new id for any sub-key that existed under the old id is
not-found.  Freshness of the generated id — it differs from the old id and
its namespace holds no pre-existing entries — reflects its 128 random bits. -/
theorem claim3_destroy_clears_namespace {α : Type} (s : KvSession α) (rb : List Nat)
    (hne : generateId rb ≠ s.id)
    (hnew : ∀ e ∈ s.kv,
      ¬ keyStarts (s.keyspace ++ [KeyPart.str (generateId rb)]) e.1 = true) :
    kvList (s.destroy rb).kv s.sessionKey = []
    ∧ (s.destroy rb).id ≠ s.id
    ∧ (∀ k : SubKey, (∃ v, kvGet s.kv (s.opKey k) = some v) → (s.destroy rb).get k = none) := by
  have hkv : (s.destroy rb).kv = s.list.foldl (fun st e => kvDelete st e.1) s.kv := rfl
  refine ⟨?_, hne, ?_⟩
  · rw [hkv]
    apply kvList_eq_nil_of
    intro e2 he2 hstart
    obtain ⟨hmem, hnk⟩ := foldDel_mem s.list s.kv e2 he2
    exact hnk (List.mem_map_of_mem Prod.fst (mem_kvList_iff.mpr ⟨hmem, hstart⟩))
  · intro k _
    cases hg : (s.destroy rb).get k with
    | none => rfl
    | some w =>
      exfalso
      have hmem2 : ((s.destroy rb).opKey k, w) ∈ (s.destroy rb).kv :=
        mem_of_kvGet_some hg
      rw [hkv] at hmem2
      have hmem3 := (foldDel_mem s.list s.kv _ hmem2).1
      have hstart : keyStarts (s.keyspace ++ [KeyPart.str (generateId rb)])
          ((s.destroy rb).opKey k) = true := by
        have : (s.destroy rb).opKey k
            = (s.keyspace ++ [KeyPart.str (generateId rb)]) ++ normalizeKey k := rfl
        rw [this]
        exact keyStarts_app _ _
      exact hnew _ hmem3 hstart

/-- C3 witness: destroying the concrete session empties its namespace,
rotates the id, and leaves both original sub-keys not-found under the new id. -/
theorem claim3_witness :
    generateId zeroBytes ≠ sessA.id
    ∧ (∀ e ∈ sessA.kv,
        ¬ keyStarts (sessA.keyspace ++ [KeyPart.str (generateId zeroBytes)]) e.1 = true)
    ∧ (kvList (sessA.destroy zeroBytes).kv sessA.sessionKey = []
        ∧ (sessA.destroy zeroBytes).id ≠ sessA.id
        ∧ (∀ k : SubKey, (∃ v, kvGet sessA.kv (sessA.opKey k) = some v) →
            (sessA.destroy zeroBytes).get k = none)) :=
  ⟨by decide, by decide,
    claim3_destroy_clears_namespace sessA zeroBytes (by decide) (by decide)⟩

/-- C2: after `refresh()` completes, every entry previously listed under the
old id is present — with an identical value — under the new id (at its
rewritten key), listing the old id's namespace gives the empty sequence,
and `refresh` returns the fresh id, which is the session's current id
afterwards.  The freshness hypotheses (the generated id differs from the
old id and occurs in no stored key, and the key space part is not the old
id) reflect the 128 random bits behind `generateId`. -/
theorem claim2_refresh_migrates_namespace {α : Type} (s : KvSession α) (rb : List Nat)
    (ks : KeyPart) (hks : s.keyspace = [ks])
    (hnd : (s.kv.map Prod.fst).Nodup)
    (hkid : ks ≠ KeyPart.str s.id)
    (hne : generateId rb ≠ s.id)
    (hfr : ∀ e ∈ s.kv, KeyPart.str (generateId rb) ∉ e.1) :
    (∀ e ∈ s.list, (rewriteKey s.id (generateId rb) e.1, e.2)
        ∈ kvList (s.refresh rb).1.kv [ks, KeyPart.str (generateId rb)])
    ∧ kvList (s.refresh rb).1.kv [ks, KeyPart.str s.id] = []
    ∧ (s.refresh rb).2 = generateId rb
    ∧ (s.refresh rb).1.id = generateId rb := by
  have hof : KeyPart.str s.id ≠ KeyPart.str (generateId rb) :=
    fun hc => hne (KeyPart.str.inj hc).symm
  have hkv : (s.refresh rb).1.kv
      = applyOps s.kv (traceOf (KeyPart.str s.id) (KeyPart.str (generateId rb)) s.list) :=
    refresh_fold_eq s.id (generateId rb) s.list s.kv
  have hndl : (s.list.map Prod.fst).Nodup := list_nodup hnd
  have hnth : ∀ e ∈ s.list, e.1.get? 1 = some (KeyPart.str s.id) :=
    fun e he => list_nth hks he
  have hfrl : ∀ e ∈ s.list, KeyPart.str (generateId rb) ∉ e.1 :=
    fun e he => hfr e (list_mem_kv he)
  have hbase : ∀ e ∈ s.list, kvGet s.kv e.1 = some e.2 :=
    fun e he => kvGet_of_mem hnd (list_mem_kv he)
  refine ⟨?_, ?_, rfl, rfl⟩
  · intro e he
    have hget : kvGet (s.refresh rb).1.kv
        (substPart (KeyPart.str s.id) (KeyPart.str (generateId rb)) e.1) = some e.2 := by
      rw [hkv]
      exact traceOf_complete hof s.list s.kv hndl hnth hfrl hbase e he
    have hmem : (substPart (KeyPart.str s.id) (KeyPart.str (generateId rb)) e.1, e.2)
        ∈ (s.refresh rb).1.kv := mem_of_kvGet_some hget
    have hstart : keyStarts [ks, KeyPart.str (generateId rb)]
        (substPart (KeyPart.str s.id) (KeyPart.str (generateId rb)) e.1) = true := by
      have hs0 : keyStarts s.sessionKey e.1 = true := (mem_kvList_iff.mp he).2
      rw [sessionKey_eq hks] at hs0
      obtain ⟨r, hr⟩ := (keyStarts_iff _ _).mp hs0
      rw [hr]
      show keyStarts [ks, KeyPart.str (generateId rb)]
        (List.map _ ([ks, KeyPart.str s.id] ++ r)) = true
      rw [List.map_append]
      have hhead : List.map
          (fun p => if p = KeyPart.str s.id then KeyPart.str (generateId rb) else p)
          [ks, KeyPart.str s.id] = [ks, KeyPart.str (generateId rb)] := by
        simp [if_neg hkid]
      rw [hhead]
      exact keyStarts_app _ _
    exact mem_kvList_iff.mpr ⟨hmem, hstart⟩
  · rw [hkv]
    apply kvList_eq_nil_of
    intro e2 he2 hstart
    rcases traceOf_mem (KeyPart.str s.id) (KeyPart.str (generateId rb)) s.list s.kv e2 he2
      with ⟨e, he, hk⟩ | ⟨hm, hnk⟩
    · have h1 : e2.1.get? 1 = some (KeyPart.str (generateId rb)) := by
        rw [hk]
        exact substPart_snd (hnth e he)
      have h2 : e2.1.get? 1 = some (KeyPart.str s.id) := (keyStarts_two hstart).2
      rw [h1] at h2
      exact hof (Option.some.inj h2).symm
    · have : e2 ∈ s.list := by
        rw [KvSession.list, sessionKey_eq hks]
        exact mem_kvList_iff.mpr ⟨hm, hstart⟩
      exact hnk (List.mem_map_of_mem Prod.fst this)

/-- C2 witness: refreshing the concrete session moves both entries under
the generated id with identical values and empties the old namespace. -/
theorem claim2_witness :
    sessA.keyspace = [KeyPart.str "sessions"]
    ∧ (sessA.kv.map Prod.fst).Nodup
    ∧ KeyPart.str "sessions" ≠ KeyPart.str sessA.id
    ∧ generateId zeroBytes ≠ sessA.id
    ∧ (∀ e ∈ sessA.kv, KeyPart.str (generateId zeroBytes) ∉ e.1)
    ∧ ((∀ e ∈ sessA.list, (rewriteKey sessA.id (generateId zeroBytes) e.1, e.2)
          ∈ kvList (sessA.refresh zeroBytes).1.kv
              [KeyPart.str "sessions", KeyPart.str (generateId zeroBytes)])
        ∧ kvList (sessA.refresh zeroBytes).1.kv
            [KeyPart.str "sessions", KeyPart.str sessA.id] = []
        ∧ (sessA.refresh zeroBytes).2 = generateId zeroBytes
        ∧ (sessA.refresh zeroBytes).1.id = generateId zeroBytes) :=
  ⟨rfl, by decide, by decide, by decide, by decide,
    claim2_refresh_migrates_namespace sessA zeroBytes (KeyPart.str "sessions")
      rfl (by decide) (by decide) (by decide) (by decide)⟩

/-- C6: `refresh` issues, for each enumerated entry, the write under the
rewritten key strictly before the delete of the original key (its mutation
trace is the interleaving write/delete/write/delete...), so after any
interrupted prefix of the trace every enumerated value is still readable
under the old key or the rewritten key — never lost from both. -/
theorem claim6_refresh_write_then_delete {α : Type} (s : KvSession α) (rb : List Nat)
    (ks : KeyPart) (t u : List (KvOp α))
    (hks : s.keyspace = [ks])
    (hnd : (s.kv.map Prod.fst).Nodup)
    (hne : generateId rb ≠ s.id)
    (hfr : ∀ e ∈ s.kv, KeyPart.str (generateId rb) ∉ e.1)
    (hsplit : t ++ u = s.refreshTrace rb) :
    ((s.refresh rb).1.kv = applyOps s.kv (s.refreshTrace rb))
    ∧ (s.refreshTrace rb = s.list.flatMap
        (fun e => [KvOp.set (rewriteKey s.id (generateId rb) e.1) e.2, KvOp.del e.1]))
    ∧ (∀ e ∈ s.list, kvGet (applyOps s.kv t) e.1 = some e.2
        ∨ kvGet (applyOps s.kv t) (rewriteKey s.id (generateId rb) e.1) = some e.2) := by
  have hof : KeyPart.str s.id ≠ KeyPart.str (generateId rb) :=
    fun hc => hne (KeyPart.str.inj hc).symm
  have hndl : (s.list.map Prod.fst).Nodup := list_nodup hnd
  have hnth : ∀ e ∈ s.list, e.1.get? 1 = some (KeyPart.str s.id) :=
    fun e he => list_nth hks he
  have hfrl : ∀ e ∈ s.list, KeyPart.str (generateId rb) ∉ e.1 :=
    fun e he => hfr e (list_mem_kv he)
  have hbase : ∀ e ∈ s.list, kvGet s.kv e.1 = some e.2 :=
    fun e he => kvGet_of_mem hnd (list_mem_kv he)
  refine ⟨refresh_fold_eq s.id (generateId rb) s.list s.kv, rfl, ?_⟩
  exact (traceOf_run hof s.list s.kv t u hsplit hndl hnth hfrl).2 hbase

/-- C6 witness: interrupting the concrete refresh right after its first
write (one-operation prefix of the trace) leaves both values reachable. -/
theorem claim6_witness :
    (sessA.refreshTrace zeroBytes).take 1 ++ (sessA.refreshTrace zeroBytes).drop 1
        = sessA.refreshTrace zeroBytes
    ∧ (sessA.kv.map Prod.fst).Nodup
    ∧ generateId zeroBytes ≠ sessA.id
    ∧ (∀ e ∈ sessA.kv, KeyPart.str (generateId zeroBytes) ∉ e.1)
    ∧ (((sessA.refresh zeroBytes).1.kv
          = applyOps sessA.kv (sessA.refreshTrace zeroBytes))
        ∧ (sessA.refreshTrace zeroBytes = sessA.list.flatMap
            (fun e => [KvOp.set (rewriteKey sessA.id (generateId zeroBytes) e.1) e.2,
              KvOp.del e.1]))
        ∧ (∀ e ∈ sessA.list,
            kvGet (applyOps sessA.kv ((sessA.refreshTrace zeroBytes).take 1)) e.1 = some e.2
            ∨ kvGet (applyOps sessA.kv ((sessA.refreshTrace zeroBytes).take 1))
                (rewriteKey sessA.id (generateId zeroBytes) e.1) = some e.2)) :=
  ⟨List.take_append_drop 1 _, by decide, by decide, by decide,
    claim6_refresh_write_then_delete sessA zeroBytes (KeyPart.str "sessions")
      ((sessA.refreshTrace zeroBytes).take 1) ((sessA.refreshTrace zeroBytes).drop 1)
      rfl (by decide) (by decide) (by decide) (List.take_append_drop 1 _)⟩

/-- C9: provided the configured key space part is not the session's id,
every store key read, written or deleted by any session operation — the
rewritten keys of `refresh` included — has the key space as its first
element, and the mutating operations leave every key outside the key
space partition untouched. -/
theorem claim9_keyspace_partition {α : Type} (s : KvSession α) (ks : KeyPart)
    (hks : s.keyspace = [ks]) (hkid : ks ≠ KeyPart.str s.id) :
    (∀ op : SessionOp α, ∀ K ∈ touchedKeys s op, K.head? = some ks)
    ∧ (∀ (k : SubKey) (v : α) (K : Key), K.head? ≠ some ks →
        kvGet (s.set k v).kv K = kvGet s.kv K)
    ∧ (∀ (k : SubKey) (K : Key), K.head? ≠ some ks →
        kvGet (s.del k).kv K = kvGet s.kv K)
    ∧ (∀ (rb : List Nat) (K : Key), K.head? ≠ some ks →
        kvGet (s.destroy rb).kv K = kvGet s.kv K)
    ∧ (∀ (rb : List Nat) (K : Key), K.head? ≠ some ks →
        kvGet (s.refresh rb).1.kv K = kvGet s.kv K) := by
  have hopk : ∀ k : SubKey, (s.opKey k).head? = some ks := by
    intro k
    rw [KvSession.opKey, sessionKey_eq hks]
    rfl
  have hlk : ∀ e ∈ s.list, e.1.head? = some ks := by
    intro e he
    have hstart : keyStarts s.sessionKey e.1 = true := (mem_kvList_iff.mp he).2
    rw [sessionKey_eq hks] at hstart
    exact keyStarts_head hstart
  have hrwk : ∀ (rb : List Nat), ∀ e ∈ s.list,
      (rewriteKey s.id (generateId rb) e.1).head? = some ks := by
    intro rb e he
    have hstart : keyStarts s.sessionKey e.1 = true := (mem_kvList_iff.mp he).2
    rw [sessionKey_eq hks] at hstart
    obtain ⟨r, hr⟩ := (keyStarts_iff _ _).mp hstart
    have hr2 : e.1 = ks :: KeyPart.str s.id :: r := by rw [hr]; rfl
    rw [hr2]
    show some (if ks = KeyPart.str s.id then KeyPart.str (generateId rb) else ks) = some ks
    rw [if_neg hkid]
  refine ⟨?_, ?_, ?_, ?_, ?_⟩
  · intro op K hK
    cases op with
    | opGet k =>
      rw [List.mem_singleton.mp hK]
      exact hopk k
    | opSet k v =>
      rw [List.mem_singleton.mp hK]
      exact hopk k
    | opDel k =>
      rw [List.mem_singleton.mp hK]
      exact hopk k
    | opList =>
      obtain ⟨e, he, rfl⟩ := List.mem_map.mp hK
      exact hlk e he
    | opDestroy rb =>
      obtain ⟨e, he, rfl⟩ := List.mem_map.mp hK
      exact hlk e he
    | opRefresh rb =>
      rcases List.mem_append.mp hK with h1 | h2
      · obtain ⟨e, he, rfl⟩ := List.mem_map.mp h1
        exact hlk e he
      · obtain ⟨e, he, rfl⟩ := List.mem_map.mp h2
        exact hrwk rb e he
  · intro k v K hKh
    exact kvGet_kvSet_ne v (fun hc => hKh (hc ▸ hopk k))
  · intro k K hKh
    exact kvGet_kvDelete_ne (fun hc => hKh (hc ▸ hopk k))
  · intro rb K hKh
    exact foldDel_frame s.list s.kv K (fun e he hc => hKh (hc ▸ hlk e he))
  · intro rb K hKh
    have hkv : (s.refresh rb).1.kv = applyOps s.kv
        (traceOf (KeyPart.str s.id) (KeyPart.str (generateId rb)) s.list) :=
      refresh_fold_eq s.id (generateId rb) s.list s.kv
    rw [hkv]
    exact traceOf_frame (KeyPart.str s.id) (KeyPart.str (generateId rb)) s.list s.kv K
      (fun e he => ⟨fun hc => hKh (hc ▸ hlk e he), fun hc => hKh (hc ▸ hrwk rb e he)⟩)

/-- C9 witness: on the concrete session every touched key of every
operation starts with the "sessions" key space part, and keys outside that
partition are untouched. -/
theorem claim9_witness :
    sessA.keyspace = [KeyPart.str "sessions"]
    ∧ KeyPart.str "sessions" ≠ KeyPart.str sessA.id
    ∧ ((∀ op : SessionOp String, ∀ K ∈ touchedKeys sessA op,
          K.head? = some (KeyPart.str "sessions"))
        ∧ (∀ (k : SubKey) (v : String) (K : Key), K.head? ≠ some (KeyPart.str "sessions") →
            kvGet (sessA.set k v).kv K = kvGet sessA.kv K)
        ∧ (∀ (k : SubKey) (K : Key), K.head? ≠ some (KeyPart.str "sessions") →
            kvGet (sessA.del k).kv K = kvGet sessA.kv K)
        ∧ (∀ (rb : List Nat) (K : Key), K.head? ≠ some (KeyPart.str "sessions") →
            kvGet (sessA.destroy rb).kv K = kvGet sessA.kv K)
        ∧ (∀ (rb : List Nat) (K : Key), K.head? ≠ some (KeyPart.str "sessions") →
            kvGet (sessA.refresh rb).1.kv K = kvGet sessA.kv K)) :=
  ⟨rfl, by decide, claim9_keyspace_partition sessA (KeyPart.str "sessions") rfl (by decide)⟩
